import Mathlib

/-!
Verification of the scripted-video synthesis pipeline
(src/services/v1/video/scripted_video.py) against its specification.

Strings are modelled as lists of characters; Python string operations
(split, strip) are embedded as executable functions on those lists.
Durations are modelled as rationals, Python integer arithmetic as Nat/Int
arithmetic. Network and subprocess results are modelled as explicit
environment values; the module-global used_videos set is explicit state.
-/

namespace ScriptedVideo

/-! ## Definitions -/

/-- The whitespace test of a default Python str.strip, restricted to the
ASCII whitespace characters (space, tab, newline, carriage return,
vertical tab, form feed). -/
def pyWS (c : Char) : Bool :=
  c = ' ' || c = '\t' || c = '\n' || c = '\r' || c = '\x0b' || c = '\x0c'

/-- Python str.strip: drop whitespace from both ends. -/
def pystrip (s : List Char) : List Char :=
  ((s.dropWhile pyWS).reverse.dropWhile pyWS).reverse

/-- Python str.split with a single-newline separator: the list of lines. -/
def splitOnNl : List Char → List (List Char)
  | [] => [[]]
  | c :: rest =>
    if c = '\n' then [] :: splitOnNl rest
    else
      match splitOnNl rest with
      | [] => [[c]]
      | r :: rs => (c :: r) :: rs

/-- Python str.split with the two-character separator made of two
newlines, as used by extract_scenes: greedy, left to right,
non-overlapping. -/
def splitOnNlNl : List Char → List (List Char)
  | [] => [[]]
  | [c] => [[c]]
  | c1 :: c2 :: rest =>
    if c1 = '\n' && c2 = '\n' then [] :: splitOnNlNl rest
    else
      match splitOnNlNl (c2 :: rest) with
      | [] => [[c1]]
      | r :: rs => (c1 :: r) :: rs

/-- Does the list contain two adjacent newline characters. -/
def hasNlNl : List Char → Bool
  | c1 :: c2 :: rest => (c1 = '\n' && c2 = '\n') || hasNlNl (c2 :: rest)
  | _ => false

/-- Error raised by extract_scenes when no scene remains (the source
raises ValueError, the spec calls it EmptyScriptError). -/
inductive ScriptError where
  | emptyScript
deriving DecidableEq, Repr

/-- Embedding of extract_scenes (scripted_video.py lines 432 to 446):
split on a double newline, strip each piece, keep the non-empty ones
(the comprehension filter followed by the second, redundant filter of
the source), and fail when nothing remains. -/
def extract_scenes (script : List Char) : Except ScriptError (List (List Char)) :=
  let scenes := ((splitOnNlNl script).map pystrip).filter (fun s => s ≠ [])
  let scenes2 := scenes.filter (fun s => s ≠ [])
  if scenes2 = [] then .error .emptyScript else .ok scenes2

/-- Boolean test for a non-empty line. -/
def neNilB (x : List Char) : Bool := !x.isEmpty

/-- Groups a list of lines into maximal runs of non-empty lines; blank
lines separate the groups and are discarded. Spec-side notion used to
express scene decomposition in terms of blank-line-separated
paragraphs. -/
def groupParas : List (List Char) → List (List (List Char))
  | [] => []
  | l :: ls =>
    if l = [] then groupParas ls
    else ((l :: ls).takeWhile neNilB) :: groupParas (ls.dropWhile neNilB)
termination_by ls => ls.length
decreasing_by
  all_goals simp only [List.length_cons]
  · omega
  · exact Nat.lt_succ_of_le (List.dropWhile_suffix _).sublist.length_le

/-- The paragraphs of a script in the sense of the specification: split
the script into lines, group maximal runs of non-blank lines into
paragraphs, rejoin each paragraph with newlines, trim whitespace and
discard empty results. -/
def blankLineParagraphs (script : List Char) : List (List Char) :=
  ((((groupParas (splitOnNl script)).map (List.intercalate ['\n'])).map pystrip).filter
    (fun s => s ≠ []))

/-- Errors of the pipeline orchestrator. The spec names the first
TooManyFailedScenesError; the source raises RuntimeError with matching
messages. -/
inductive PipelineError where
  | tooManyFailedScenes
  | allScenesFailed
  | concatenationFailed
  | validationError
  | invalidFinalVideo
deriving DecidableEq, Repr

/-- Number of permanently failed scenes: in the source each failed scene
appends one entry to scene_errors and yields None in the gathered
results, so the count of None entries is the count of failed scenes. -/
def failedSceneCount {α : Type} (results : List (Option α)) : ℕ :=
  (results.filter (fun r => r.isNone)).length

/-- Embedding of the tail of process_all_scenes (lines 1606 to 1627):
given the gathered per-scene results (None for a permanently failed
scene), fail when the failure count exceeds half the scene count
(the float comparison failures > n / 2 on integers is exactly
2 * failures > n), otherwise keep the successful results in their
original order; fail if none remain. -/
def process_all_scenes {α : Type} (results : List (Option α)) :
    Except PipelineError (List α) :=
  let n := results.length
  let failures := failedSceneCount results
  if 0 < failures ∧ 2 * failures > n then .error .tooManyFailedScenes
  else
    let scene_paths := results.filterMap id
    if scene_paths.isEmpty then .error .allScenesFailed
    else .ok scene_paths

/-- Python dict insertion for the custom-media dict comprehension: a
later entry with the same key overwrites the earlier one. -/
def dictInsert (d : List (Int × String)) (k : Int) (v : String) : List (Int × String) :=
  if d.any (fun p => p.1 = k) then d.map (fun p => if p.1 = k then (k, v) else p)
  else d ++ [(k, v)]

/-- The dict comprehension of lines 1535 to 1536 building scene index to
custom url. -/
def buildCustomUrls (cm : List (Int × String)) : List (Int × String) :=
  cm.foldl (fun d p => dictInsert d p.1 p.2) []

/-- Embedding of the custom-media index check of lines 1539 to 1545: the
out-of-range indices are logged and deleted from the dict, and
processing continues; no error is raised. -/
def validateCustomUrls (cm : List (Int × String)) (numScenes : ℕ) :
    Except PipelineError (List (Int × String)) :=
  .ok ((buildCustomUrls cm).filter
    (fun p => decide (0 ≤ p.1) && decide (p.1 < (numScenes : Int))))

/-- process_all_scenes including the custom-media handling that precedes
the scene fan-out. -/
def process_all_scenes_full {α : Type} (results : List (Option α))
    (cm : List (Int × String)) : Except PipelineError (List α) :=
  match validateCustomUrls cm results.length with
  | .error e => .error e
  | .ok _ => process_all_scenes results

/-- Provider search results for one fetch_stock_media call: the primary
Pexels response, the primary Pixabay response, and for each alternative
keyword the pair of a Pexels and a Pixabay response. Each candidate is
the url extracted from the raw result, or none when the link field is
missing. -/
structure FetchEnv where
  pexels1 : List (Option String)
  pixabay1 : List (Option String)
  alts : List (List (Option String) × List (Option String))
deriving Repr

/-- The selection loop over one response: the first candidate whose url
is present and not in the used set. -/
def firstUnused (cands : List (Option String)) (used : List String) : Option String :=
  cands.findSome? (fun c => match c with
    | some u => if u ∈ used then none else some u
    | none => none)

/-- The alternative-keyword loop of lines 347 to 370: per keyword, try
the Pexels response then the Pixabay response, stopping at the first
unused hit. -/
def altSearch (alts : List (List (Option String) × List (Option String)))
    (used : List String) : Option String :=
  match alts with
  | [] => none
  | (px, pb) :: rest =>
    match firstUnused px used with
    | some u => some u
    | none =>
      match firstUnused pb used with
      | some u => some u
      | none => altSearch rest used

/-- Embedding of fetch_stock_media (lines 304 to 383) over an explicit
environment and used set. A some result carries the selected candidate
(whose url may itself be missing in the fallback case); none models the
empty-list return. In the final fallback the source reads the variables
results and pixabay_results, which at that point hold the responses of
the last alternative keyword iteration (the loop reassigns them), or
the primary responses when there is no alternative keyword. -/
def fetch_stock_media (env : FetchEnv) (custom : Option String) (used : List String) :
    Option (Option String) × List String :=
  match custom with
  | some u => (some (some u), used)
  | none =>
    match firstUnused env.pexels1 used with
    | some u => (some (some u), u :: used)
    | none =>
      match firstUnused env.pixabay1 used with
      | some u => (some (some u), u :: used)
      | none =>
        match altSearch env.alts used with
        | some u => (some (some u), u :: used)
        | none =>
          let lastPex := ((env.alts.getLast?).map Prod.fst).getD env.pexels1
          let lastPix := ((env.alts.getLast?).map Prod.snd).getD env.pixabay1
          match lastPex.head? with
          | some cand => (some cand, used)
          | none =>
            match lastPix.head? with
            | some cand => (some cand, used)
            | none => (none, used)

/-- Line 1500 of process_scripted_video_v1: the module-global used_videos
set is overwritten with a fresh empty set at the start of every job,
whatever it held before. -/
def resetUsedVideos (_prev : List String) : List String := []

/-- The media selections of one job run: starting from the global
used-videos state left by previous jobs, the job first resets it and
then resolves media for each scene in order, threading the set through
the calls. Each list entry is one scene environment together with its
optional custom url. -/
def jobMediaSelections (initUsed : List String)
    (envs : List (FetchEnv × Option String)) : List (Option (Option String)) :=
  (envs.foldl
    (fun st e =>
      let r := fetch_stock_media e.1 e.2 st.2
      (st.1 ++ [r.1], r.2))
    (([], resetUsedVideos initUsed) : List (Option (Option String)) × List String)).1

/-- Outcomes of the caption stage collaborators for one job:
transcription yields srt content (ok some), no usable segments
(ok none) or raises (error); the caption service returns a path
(ok some), no valid path (ok none) or raises (error); the produced
captioned file validates or not. -/
structure CaptionEnv where
  transcription : Except Unit (Option String)
  service : Except Unit (Option String)
  captionedValid : Bool

/-- The caption block of lines 1671 to 1791: on transcription failure
the srt content falls back to the script-derived track; captioning is
adopted only when the service returns an existing path that validates;
every failure path is caught and leaves the uncaptioned video in
place. Returns the adopted captioned path, or none when the
uncaptioned video is kept. -/
def caption_choice (env : CaptionEnv) : Option String :=
  let srtContent : Option String :=
    match env.transcription with
    | .ok s => s
    | .error _ => some "srt-from-script"
  match srtContent with
  | none => none
  | some _ =>
    match env.service with
    | .error _ => none
    | .ok none => none
    | .ok (some p) => if env.captionedValid then some p else none

/-- The caption stage followed by the final verification of lines 1793
to 1804: the returned path is the captioned one when adopted (it was
validated during adoption), otherwise the uncaptioned one, which must
itself validate. -/
def pipeline_caption_stage (uncap : String) (uncapValid : Bool) (env : CaptionEnv) :
    Except PipelineError String :=
  match caption_choice env with
  | some p => .ok p
  | none => if uncapValid then .ok uncap else .error .invalidFinalVideo

/-- The video stream properties probed before concatenation. -/
structure StreamInfo where
  width : ℕ
  height : ℕ
  codec : String
  pixFmt : String
deriving DecidableEq, Repr

/-- The mismatch test of lines 874 to 889 between one input and the
first input. -/
def formatMismatch (i f : StreamInfo) : Bool :=
  decide (i.width ≠ f.width) || decide (i.height ≠ f.height) ||
    decide (i.codec ≠ f.codec) || decide (i.pixFmt ≠ f.pixFmt)

/-- Standardization is needed when there are at least two inputs and
some later input differs from the first in resolution, codec or pixel
format (lines 866 to 889). -/
def need_standardization : List StreamInfo → Bool
  | [] => false
  | [_] => false
  | f :: rest => rest.any (fun i => formatMismatch i f)

/-- The scaling filter chosen by standardize_video_format. -/
inductive ScaleFilter where
  | noScaling
  | scaleOnly
  | scalePad
deriving DecidableEq, Repr

/-- The float test abs(w / h - tw / th) > 0.01 of line 1110, modelled
exactly over the rationals via cross multiplication (h and th are
positive in every use). -/
def aspectsFar (w h tw th : ℕ) : Bool :=
  decide (100 * ((w : Int) * th - tw * h).natAbs > h * th)

/-- Embedding of standardize_video_format (lines 1030 to 1209) at the
stream-property level: scale with padding when the aspect differs by
more than the threshold, plain scale otherwise, no filter when the
dimensions already match; the output is always encoded with libx264
(so codec h264) at the target dimensions and target pixel format. The
target codec parameter is accepted but, as in the source, not used by
the encoding command. -/
def standardize_video_format (i : StreamInfo) (tw th : ℕ)
    (_targetCodec : String) (tpix : String) : StreamInfo × ScaleFilter :=
  let filt :=
    if i.width ≠ tw ∨ i.height ≠ th then
      (if aspectsFar i.width i.height tw th then ScaleFilter.scalePad
       else ScaleFilter.scaleOnly)
    else ScaleFilter.noScaling
  ({ width := tw, height := th, codec := "h264", pixFmt := tpix }, filt)

/-- Embedding of the standardization decision of concatenate_videos
(lines 857 to 931): when a mismatch with the first input is detected,
every input (the first included) is standardized to the first input
parameters; the second component records that the join itself always
re-encodes (lines 952 to 968 use libx264 unconditionally, never a
stream copy). -/
def concat_inputs (infos : List StreamInfo) : List (StreamInfo × ScaleFilter) × Bool :=
  match infos with
  | [] => ([], true)
  | f :: rest =>
    if need_standardization (f :: rest) then
      ((f :: rest).map (fun i => standardize_video_format i f.width f.height f.codec f.pixFmt),
        true)
    else ((f :: rest).map (fun i => (i, ScaleFilter.noScaling)), true)

/-- The looping method selected by combine_video_audio. -/
inductive LoopStyle where
  | crossfade
  | concatLoop
  | trimOnly
deriving DecidableEq, Repr

/-- The duration-level plan produced by combine_video_audio. -/
structure CombinePlan where
  style : LoopStyle
  loopedLen : ℚ
  outDur : ℚ
  audioFromNarration : Bool
deriving DecidableEq, Repr

/-- fade_duration = min(0.5, video_duration / 4) of line 638. -/
def fade_duration (v : ℚ) : ℚ := min (1 / 2) (v / 4)

/-- num_loops = int(audio_duration / video_duration) + 1 of line 619
(both durations positive, so Python int truncation is the floor). -/
def num_loops (v a : ℚ) : ℤ := ⌊a / v⌋ + 1

/-- total_loops_needed of line 647. -/
def total_loops_needed (v a : ℚ) : ℤ :=
  ⌊(a + fade_duration v) / (v - fade_duration v)⌋ + 1

/-- Embedding of combine_video_audio (lines 590 to 788) at the duration
level. When the clip is shorter than the narration it is looped: with
crossfade transitions when the clip lasts at least 3 seconds and more
than one loop is needed, else by writing num_loops + 1 concat-demuxer
entries; the looped video is then muxed with the narration under
-t audio_duration and -shortest. When the clip is at least as long as
the narration, the mux uses -t (audio_duration + 0.1) with -shortest.
The narration stream (map 1:a:0) is the sole audio track in every
branch. -/
def combine_video_audio_plan (v a : ℚ) : CombinePlan :=
  if v < a then
    if 3 ≤ v ∧ 1 < num_loops v a then
      let n := total_loops_needed v a
      let fd := fade_duration v
      let chain := (n : ℚ) * v - ((n : ℚ) - 1) * fd
      let chainTrimmed := min chain (a + fd)
      { style := .crossfade, loopedLen := chainTrimmed,
        outDur := min a chainTrimmed, audioFromNarration := true }
    else
      let len := ((num_loops v a : ℚ) + 1) * v
      { style := .concatLoop, loopedLen := len,
        outDur := min a len, audioFromNarration := true }
  else
    { style := .trimOnly, loopedLen := v,
      outDur := min (a + 1 / 10) (min v a), audioFromNarration := true }

/-- File-level embedding of one job of process_scripted_video_v1 with
captions off: outcomes lists the per-scene results after retries (a
clip file name per success, none per permanent failure), concatOk says
whether concatenation succeeds, finalName is the final artifact. The
result pairs the job outcome with the files remaining on disk. The
clips of successful scenes exist after the scene phase; they are
registered in the temp_files list only at line 1655, after the
threshold check inside process_all_scenes, so a threshold failure
propagates while the finally block of lines 1816 to 1824 has nothing
registered to remove. -/
def run_job_files (outcomes : List (Option String)) (concatOk : Bool)
    (finalName : String) : Except PipelineError String × List String :=
  let clips := outcomes.filterMap id
  let n := outcomes.length
  let failures := failedSceneCount outcomes
  if 0 < failures ∧ 2 * failures > n then
    (.error .tooManyFailedScenes, clips)
  else if clips = [] then
    (.error .allScenesFailed, clips)
  else if concatOk then
    let disk := clips ++ [finalName]
    let tempFiles := clips
    (.ok finalName,
      disk.filter (fun f => !(decide (f ∈ tempFiles) && !(decide (f = finalName)))))
  else
    let tempFiles := clips
    (.error .concatenationFailed, clips.filter (fun f => !(decide (f ∈ tempFiles))))

/-- The concurrency limit of line 1527:
max_workers = min(3, 8 // max(1, len(scenes) // 3)). -/
def max_workers (n : ℕ) : ℕ := min 3 (8 / max 1 (n / 3))

/-! ## Theorems -/

theorem splitOnNl_ne_nil (s : List Char) : splitOnNl s ≠ [] := by
  cases s with
  | nil => simp [splitOnNl]
  | cons c rest =>
    simp only [splitOnNl]
    by_cases h : c = '\n'
    · simp [h]
    · simp only [h, if_false]
      cases hr : splitOnNl rest <;> simp

theorem splitOnNlNl_ne_nil (s : List Char) : splitOnNlNl s ≠ [] := by
  match s with
  | [] => simp [splitOnNlNl]
  | [c] => simp [splitOnNlNl]
  | c1 :: c2 :: rest =>
    simp only [splitOnNlNl]
    by_cases h : (c1 = '\n' && c2 = '\n') = true
    · simp [h]
    · simp only [h, if_false]
      cases hr : splitOnNlNl (c2 :: rest) <;> simp

theorem intercalate_single (sep x : List Char) : List.intercalate sep [x] = x := by
  simp [List.intercalate]

theorem intercalate_cons2 (sep x y : List Char) (L : List (List Char)) :
    List.intercalate sep (x :: y :: L) = x ++ sep ++ List.intercalate sep (y :: L) := by
  simp [List.intercalate, List.intersperse_cons_cons, List.append_assoc]

theorem intercalate_cons_ne (sep x : List Char) (L : List (List Char)) (h : L ≠ []) :
    List.intercalate sep (x :: L) = x ++ sep ++ List.intercalate sep L := by
  cases L with
  | nil => exact absurd rfl h
  | cons y t => exact intercalate_cons2 sep x y t

theorem intercalate_splitOnNl (s : List Char) : List.intercalate ['\n'] (splitOnNl s) = s := by
  induction s with
  | nil => simp [splitOnNl, intercalate_single]
  | cons c rest ih =>
    simp only [splitOnNl]
    by_cases h : c = '\n'
    · rw [if_pos h, intercalate_cons_ne _ _ _ (splitOnNl_ne_nil rest), ih, h]
      rfl
    · rw [if_neg h]
      cases hr : splitOnNl rest with
      | nil => exact absurd hr (splitOnNl_ne_nil rest)
      | cons r rs =>
        rw [hr] at ih
        cases rs with
        | nil =>
          rw [intercalate_single] at ih
          simp [intercalate_single, ih]
        | cons r2 rs2 =>
          rw [intercalate_cons2] at ih ⊢
          simp [← ih]

theorem intercalate_splitOnNlNl (s : List Char) :
    List.intercalate ['\n', '\n'] (splitOnNlNl s) = s := by
  induction s using splitOnNlNl.induct with
  | case1 => simp [splitOnNlNl, intercalate_single]
  | case2 c => simp [splitOnNlNl, intercalate_single]
  | case3 c1 c2 rest h ih =>
    simp only [splitOnNlNl, h, if_true]
    rw [intercalate_cons_ne _ _ _ (splitOnNlNl_ne_nil rest), ih]
    have hc1 : c1 = '\n' := by
      cases (Bool.and_eq_true _ _).mp h with
      | intro a b => exact decide_eq_true_eq.mp a
    have hc2 : c2 = '\n' := by
      cases (Bool.and_eq_true _ _).mp h with
      | intro a b => exact decide_eq_true_eq.mp b
    simp [hc1, hc2]
  | case4 c1 c2 rest h hnil ih => exact absurd hnil (splitOnNlNl_ne_nil _)
  | case5 c1 c2 rest h r rs hr ih =>
    rw [hr] at ih
    simp only [splitOnNlNl, h, if_false, hr, Bool.false_eq_true]
    cases rs with
    | nil =>
      rw [intercalate_single] at ih
      simp [intercalate_single, ih]
    | cons r2 rs2 =>
      rw [intercalate_cons2] at ih ⊢
      simp [← ih]

theorem splitOnNlNl_head_shape (x : Char) (xs : List Char) (r : List Char)
    (rs : List (List Char)) (h : splitOnNlNl (x :: xs) = r :: rs) :
    r = [] ∨ ∃ r2, r = x :: r2 := by
  cases xs with
  | nil =>
    simp [splitOnNlNl] at h
    right
    exact ⟨[], h.1.symm⟩
  | cons c2 rest =>
    simp only [splitOnNlNl] at h
    by_cases hc : (x = '\n' && c2 = '\n') = true
    · rw [if_pos hc] at h
      left
      exact (List.cons.injEq _ _ _ _).mp h |>.1.symm
    · rw [if_neg hc] at h
      cases hsp : splitOnNlNl (c2 :: rest) with
      | nil => exact absurd hsp (splitOnNlNl_ne_nil _)
      | cons q qs =>
        rw [hsp] at h
        right
        exact ⟨q, ((List.cons.injEq _ _ _ _).mp h).1.symm⟩

theorem chunks_no_nlnl (s : List Char) : ∀ c ∈ splitOnNlNl s, hasNlNl c = false := by
  induction s using splitOnNlNl.induct with
  | case1 => intro c hc; simp [splitOnNlNl] at hc; simp [hc, hasNlNl]
  | case2 a => intro c hc; simp [splitOnNlNl] at hc; simp [hc, hasNlNl]
  | case3 c1 c2 rest h ih =>
    intro c hc
    simp only [splitOnNlNl, h, if_true, List.mem_cons] at hc
    cases hc with
    | inl he => simp [he, hasNlNl]
    | inr hm => exact ih c hm
  | case4 c1 c2 rest h hnil ih => exact absurd hnil (splitOnNlNl_ne_nil _)
  | case5 c1 c2 rest h r rs hr ih =>
    intro c hc
    simp only [splitOnNlNl, h, if_false, hr, Bool.false_eq_true, List.mem_cons] at hc
    cases hc with
    | inl he =>
      subst he
      cases splitOnNlNl_head_shape c2 rest r rs hr with
      | inl hre =>
        subst hre
        simp [hasNlNl]
      | inr hex =>
        obtain ⟨r2, hre⟩ := hex
        subst hre
        have hrmem : hasNlNl (c2 :: r2) = false := ih _ (by rw [hr]; exact List.mem_cons_self _ _)
        simp only [hasNlNl, Bool.or_eq_false_iff]
        constructor
        · exact (Bool.not_eq_true _).mp (by simpa using h)
        · exact hrmem
    | inr hm => exact ih c (by rw [hr]; exact List.mem_cons_of_mem _ hm)

theorem splitOnNl_append_nl (a b : List Char) :
    splitOnNl (a ++ '\n' :: b) = splitOnNl a ++ splitOnNl b := by
  induction a with
  | nil => simp [splitOnNl]
  | cons c a ih =>
    by_cases h : c = '\n'
    · subst h
      simp only [List.cons_append, splitOnNl, if_true, List.append_eq, ih]
    · simp only [List.cons_append, splitOnNl, h, if_false, List.append_eq, ih]
      cases ha : splitOnNl a with
      | nil => exact absurd ha (splitOnNl_ne_nil _)
      | cons r rs => simp

theorem neNilB_nil : neNilB [] = false := rfl

theorem neNilB_cons (c : Char) (t : List Char) : neNilB (c :: t) = true := rfl

theorem neNilB_eq_true_iff (x : List Char) : neNilB x = true ↔ x ≠ [] := by
  cases x <;> simp [neNilB]

theorem takeWhile_append_nilElem (u : List (List Char)) (v : List (List Char)) :
    (u ++ [] :: v).takeWhile neNilB = u.takeWhile neNilB := by
  induction u with
  | nil => simp [List.takeWhile, neNilB_nil]
  | cons l u ih =>
    cases l with
    | nil => simp [List.takeWhile_cons, neNilB_nil]
    | cons c t => simp [List.takeWhile_cons, neNilB_cons, ih]

theorem dropWhile_append_nilElem (u : List (List Char)) (v : List (List Char)) :
    (u ++ [] :: v).dropWhile neNilB = u.dropWhile neNilB ++ [] :: v := by
  induction u with
  | nil => simp [List.dropWhile, neNilB_nil]
  | cons l u ih =>
    cases l with
    | nil => simp [List.dropWhile_cons, neNilB_nil]
    | cons c t => simp [List.dropWhile_cons, neNilB_cons, ih]

theorem groupParas_nil : groupParas [] = [] := by rw [groupParas]

theorem groupParas_cons_nil (ls : List (List Char)) : groupParas ([] :: ls) = groupParas ls := by
  simp [groupParas]

theorem groupParas_cons_ne (l : List Char) (ls : List (List Char)) (h : l ≠ []) :
    groupParas (l :: ls) = ((l :: ls).takeWhile neNilB) :: groupParas (ls.dropWhile neNilB) := by
  rw [groupParas]
  simp [h]

theorem groupParas_append_nil (xs ys : List (List Char)) :
    groupParas (xs ++ [] :: ys) = groupParas xs ++ groupParas ys := by
  have H : ∀ (n : ℕ) (xs : List (List Char)), xs.length = n →
      groupParas (xs ++ [] :: ys) = groupParas xs ++ groupParas ys := by
    intro n
    induction n using Nat.strong_induction_on with
    | _ n ih =>
      intro xs hn
      cases xs with
      | nil => simp [groupParas_cons_nil, groupParas_nil]
      | cons l ls =>
        subst hn
        cases l with
        | nil =>
          simp only [List.cons_append, groupParas_cons_nil]
          exact ih ls.length (by simp) ls rfl
        | cons c t =>
          have hl : (c :: t : List Char) ≠ [] := by simp
          simp only [List.cons_append]
          rw [groupParas_cons_ne _ _ hl, groupParas_cons_ne _ _ hl]
          rw [List.takeWhile_cons, List.takeWhile_cons]
          simp only [neNilB_cons, if_true]
          rw [takeWhile_append_nilElem, dropWhile_append_nilElem]
          have hd := ih (ls.dropWhile neNilB).length
            (Nat.lt_succ_of_le (List.dropWhile_suffix _).sublist.length_le)
            (ls.dropWhile neNilB) rfl
          rw [hd]
          simp
  exact H xs.length xs rfl

theorem groupParas_of_all_ne (xs : List (List Char)) (hne : xs ≠ [])
    (h : ∀ l ∈ xs, l ≠ []) : groupParas xs = [xs] := by
  cases xs with
  | nil => exact absurd rfl hne
  | cons l ls =>
    have hl : l ≠ [] := h l (List.mem_cons_self _ _)
    rw [groupParas_cons_ne _ _ hl]
    have ht : (l :: ls).takeWhile neNilB = l :: ls :=
      List.takeWhile_eq_self_iff.mpr (fun a ha => (neNilB_eq_true_iff a).mpr (h a ha))
    have hd : ls.dropWhile neNilB = [] :=
      List.dropWhile_eq_nil_iff.mpr
        (fun a ha => (neNilB_eq_true_iff a).mpr (h a (List.mem_cons_of_mem _ ha)))
    rw [ht, hd, groupParas_nil]

/-- Unfolding equations for splitOnNl on a cons cell. -/
theorem splitOnNl_cons_nl (rest : List Char) :
    splitOnNl ('\n' :: rest) = [] :: splitOnNl rest := by
  simp [splitOnNl]

theorem splitOnNl_cons_ne (x : Char) (rest : List Char) (hx : x ≠ '\n')
    (q : List Char) (qs : List (List Char)) (hs : splitOnNl rest = q :: qs) :
    splitOnNl (x :: rest) = (x :: q) :: qs := by
  simp [splitOnNl, hx, hs]

theorem hasNlNl_cons_cons (a b : Char) (t : List Char) :
    hasNlNl (a :: b :: t) = (((a = '\n' : Bool) && (b = '\n' : Bool)) || hasNlNl (b :: t)) := by
  simp [hasNlNl]

/-- In a chunk with no double newline, not starting and not ending in a
newline, every line is non-empty. -/
theorem lines_ne_nil_of_clean (s : List Char) (hne : s ≠ [])
    (hh : s.head? ≠ some '\n') (hl : s.getLast? ≠ some '\n')
    (hnn : hasNlNl s = false) : ∀ l ∈ splitOnNl s, l ≠ [] := by
  have H : ∀ (n : ℕ) (s : List Char), s.length = n → s ≠ [] →
      s.head? ≠ some '\n' → s.getLast? ≠ some '\n' → hasNlNl s = false →
      ∀ l ∈ splitOnNl s, l ≠ [] := by
    intro n
    induction n using Nat.strong_induction_on with
    | _ n ih =>
      intro s hn hne hh hl hnn
      cases s with
      | nil => exact absurd rfl hne
      | cons x rest =>
        have hx : x ≠ '\n' := by
          intro hxe
          exact hh (by simp [hxe])
        cases rest with
        | nil =>
          intro l hlmem
          simp only [splitOnNl, hx, if_false] at hlmem
          simp only [List.mem_singleton] at hlmem
          subst hlmem
          simp
        | cons y rest2 =>
          by_cases hy : y = '\n'
          · subst hy
            have hr2ne : rest2 ≠ [] := by
              intro he
              subst he
              exact hl (by simp)
            have hr2h : rest2.head? ≠ some '\n' := by
              cases rest2 with
              | nil => simp
              | cons z r3 =>
                intro hz
                have hz2 : z = '\n' := Option.some.inj hz
                have h1 : hasNlNl ('\n' :: z :: r3) = true := by
                  rw [hasNlNl_cons_cons]
                  simp [hz2]
                rw [hasNlNl_cons_cons, h1] at hnn
                simp at hnn
            have hr2l : rest2.getLast? ≠ some '\n' := by
              cases rest2 with
              | nil => exact absurd rfl hr2ne
              | cons z r3 =>
                rw [List.getLast?_cons_cons, List.getLast?_cons_cons] at hl
                exact hl
            have hr2nn : hasNlNl rest2 = false := by
              cases rest2 with
              | nil => rfl
              | cons z r3 =>
                rw [hasNlNl_cons_cons] at hnn
                have h2 := (Bool.or_eq_false_iff.mp hnn).2
                rw [hasNlNl_cons_cons] at h2
                exact (Bool.or_eq_false_iff.mp h2).2
            have hrec := ih rest2.length (by simp [← hn]; omega) rest2 rfl
              hr2ne hr2h hr2l hr2nn
            have heq : splitOnNl (x :: '\n' :: rest2) = [x] :: splitOnNl rest2 :=
              splitOnNl_cons_ne x _ hx [] (splitOnNl rest2) (splitOnNl_cons_nl rest2)
            rw [heq]
            intro l hlmem
            simp only [List.mem_cons] at hlmem
            rcases hlmem with h1 | h2
            · subst h1
              simp
            · exact hrec l h2
          · have hrne : (y :: rest2 : List Char) ≠ [] := by simp
            have hrh : (y :: rest2).head? ≠ some '\n' := by
              intro hc
              exact hy (Option.some.inj hc)
            have hrl : (y :: rest2).getLast? ≠ some '\n' := by
              rw [List.getLast?_cons_cons] at hl
              exact hl
            have hrnn : hasNlNl (y :: rest2) = false := by
              rw [hasNlNl_cons_cons] at hnn
              exact (Bool.or_eq_false_iff.mp hnn).2
            have hrec := ih (y :: rest2).length (by simp [← hn]) (y :: rest2) rfl
              hrne hrh hrl hrnn
            cases hs : splitOnNl (y :: rest2) with
            | nil => exact absurd hs (splitOnNl_ne_nil _)
            | cons q qs =>
              rw [splitOnNl_cons_ne x _ hx q qs hs]
              intro l hlmem
              simp only [List.mem_cons] at hlmem
              rcases hlmem with h1 | h2
              · subst h1
                simp
              · exact hrec l (by rw [hs]; exact List.mem_cons_of_mem _ h2)
  exact H s.length s rfl hne hh hl hnn

theorem pyWS_nl : pyWS '\n' = true := rfl

theorem pystrip_cons_ws (w : Char) (hw : pyWS w = true) (c : List Char) :
    pystrip (w :: c) = pystrip c := by
  simp [pystrip, List.dropWhile_cons, hw]

theorem pystrip_append_ws (c : List Char) (w : Char) (hw : pyWS w = true) :
    pystrip (c ++ [w]) = pystrip c := by
  unfold pystrip
  rw [List.dropWhile_append]
  rcases hdw : c.dropWhile pyWS with _ | ⟨d, ds⟩
  · simp [List.dropWhile_cons, hw, List.dropWhile_nil]
  · simp only [List.isEmpty_cons, if_false, Bool.false_eq_true]
    rw [List.reverse_append]
    simp only [List.reverse_cons, List.reverse_nil, List.nil_append, List.singleton_append]
    rw [List.dropWhile_cons]
    simp [hw]

theorem pystrip_nil : pystrip [] = [] := rfl

/-- Stripping a list of whitespace characters gives the empty list. -/
theorem pystrip_eq_nil_of_all_ws (c : List Char) (h : ∀ x ∈ c, pyWS x = true) :
    pystrip c = [] := by
  unfold pystrip
  have hd : c.dropWhile pyWS = [] := List.dropWhile_eq_nil_iff.mpr h
  simp [hd]

theorem hasNlNl_append_left (u v : List Char) (h : hasNlNl (u ++ v) = false) :
    hasNlNl u = false := by
  induction u with
  | nil => rfl
  | cons a u ih =>
    cases u with
    | nil => rfl
    | cons b t =>
      rw [List.cons_append, List.cons_append, hasNlNl_cons_cons] at h
      have h2 := Bool.or_eq_false_iff.mp h
      rw [hasNlNl_cons_cons]
      apply Bool.or_eq_false_iff.mpr
      refine ⟨h2.1, ?_⟩
      apply ih
      rw [List.cons_append]
      exact h2.2

theorem hasNlNl_tail (a : Char) (t : List Char) (h : hasNlNl (a :: t) = false) :
    hasNlNl t = false := by
  cases t with
  | nil => rfl
  | cons b t2 =>
    rw [hasNlNl_cons_cons] at h
    exact (Bool.or_eq_false_iff.mp h).2

/-- Scene extraction from a single chunk: grouping the lines of a chunk
with no double newline into paragraphs, joining, stripping and filtering
gives exactly the stripped chunk (when non-empty). -/
theorem chunk_scenes (c : List Char) (h : hasNlNl c = false) :
    ((((groupParas (splitOnNl c)).map (List.intercalate ['\n'])).map pystrip).filter
      (fun s => s ≠ [])) = ([pystrip c]).filter (fun s => s ≠ []) := by
  have H : ∀ (n : ℕ) (c : List Char), c.length = n → hasNlNl c = false →
      ((((groupParas (splitOnNl c)).map (List.intercalate ['\n'])).map pystrip).filter
        (fun s => s ≠ [])) = ([pystrip c]).filter (fun s => s ≠ []) := by
    intro n
    induction n using Nat.strong_induction_on with
    | _ n ih =>
      intro c hn h
      cases c with
      | nil =>
        show ((((groupParas (splitOnNl [])).map (List.intercalate ['\n'])).map pystrip).filter
          (fun s => s ≠ [])) = ([pystrip []]).filter (fun s => s ≠ [])
        rw [show splitOnNl [] = [[]] from rfl]
        rw [groupParas_cons_nil, groupParas_nil]
        simp [pystrip_nil]
      | cons x c2 =>
        by_cases hx : x = '\n'
        · subst hx
          rw [splitOnNl_cons_nl, groupParas_cons_nil,
            pystrip_cons_ws '\n' pyWS_nl c2]
          exact ih c2.length (by simp [← hn]) c2 rfl (hasNlNl_tail _ _ h)
        · by_cases hlast : (x :: c2).getLast? = some '\n'
          · -- the chunk ends with a newline: strip it off and recurse
            have hne : (x :: c2 : List Char) ≠ [] := by simp
            have hgl : (x :: c2).getLast hne = '\n' := by
              have := List.getLast?_eq_getLast (x :: c2) hne
              rw [hlast] at this
              exact (Option.some.inj this).symm
            have hdec : (x :: c2).dropLast ++ ['\n'] = x :: c2 := by
              conv_rhs => rw [← List.dropLast_append_getLast hne]
              rw [hgl]
            rw [← hdec]
            rw [show ((x :: c2).dropLast ++ ['\n'] : List Char)
                = (x :: c2).dropLast ++ '\n' :: [] from rfl]
            rw [splitOnNl_append_nl]
            rw [show splitOnNl [] = [[]] from rfl]
            rw [show (splitOnNl ((x :: c2).dropLast) ++ [[]] : List (List Char))
                = splitOnNl ((x :: c2).dropLast) ++ [] :: [] from rfl]
            rw [groupParas_append_nil, groupParas_nil, List.append_nil]
            rw [show ((x :: c2).dropLast ++ '\n' :: [] : List Char)
                = (x :: c2).dropLast ++ ['\n'] from rfl]
            rw [pystrip_append_ws _ '\n' pyWS_nl]
            have hclean : hasNlNl ((x :: c2).dropLast) = false := by
              apply hasNlNl_append_left _ ['\n']
              rw [hdec]
              exact h
            exact ih ((x :: c2).dropLast).length
              (by rw [List.length_dropLast, ← hn]; simp) _ rfl hclean
          · -- clean chunk: a single paragraph equal to the whole chunk
            have hne : (x :: c2 : List Char) ≠ [] := by simp
            have hh : (x :: c2).head? ≠ some '\n' := by
              intro hc
              exact hx (Option.some.inj hc)
            have hall := lines_ne_nil_of_clean (x :: c2) hne hh hlast h
            rw [groupParas_of_all_ne _ (splitOnNl_ne_nil _) hall]
            rw [List.map_singleton, intercalate_splitOnNl, List.map_singleton]
  exact H c.length c rfl h

theorem spec_of_chunks (L : List (List Char)) (hne : L ≠ [])
    (hcl : ∀ c ∈ L, hasNlNl c = false) :
    ((((groupParas (splitOnNl (List.intercalate ['\n', '\n'] L))).map
        (List.intercalate ['\n'])).map pystrip).filter (fun s => s ≠ []))
      = ((L.map pystrip).filter (fun s => s ≠ [])) := by
  induction L with
  | nil => exact absurd rfl hne
  | cons c L2 ih =>
    cases L2 with
    | nil =>
      rw [intercalate_single]
      rw [chunk_scenes c (hcl c (List.mem_cons_self _ _))]
      simp
    | cons c2 L3 =>
      rw [intercalate_cons_ne _ _ _ (by simp)]
      rw [show (c ++ ['\n', '\n'] ++ List.intercalate ['\n', '\n'] (c2 :: L3) : List Char)
          = c ++ '\n' :: ('\n' :: List.intercalate ['\n', '\n'] (c2 :: L3)) by simp]
      rw [splitOnNl_append_nl, splitOnNl_cons_nl]
      rw [groupParas_append_nil]
      rw [List.map_append, List.map_append, List.filter_append]
      rw [chunk_scenes c (hcl c (List.mem_cons_self _ _))]
      rw [ih (by simp) (fun d hd => hcl d (List.mem_cons_of_mem _ hd))]
      rw [← List.filter_append]
      rfl

theorem mem_intercalate_of_mem (L : List (List Char)) (sep c : List Char)
    (hc : c ∈ L) (x : Char) (hx : x ∈ c) : x ∈ List.intercalate sep L := by
  induction L with
  | nil => cases hc
  | cons d L2 ih =>
    cases L2 with
    | nil =>
      rw [List.mem_singleton] at hc
      subst hc
      rwa [intercalate_single]
    | cons d2 L3 =>
      rw [intercalate_cons_ne _ _ _ (by simp)]
      rcases List.mem_cons.mp hc with h1 | h2
      · subst h1
        simp [hx]
      · have := ih h2
        simp only [List.mem_append]
        right
        exact this

theorem codeScenes_eq_blankLineParagraphs (s : List Char) :
    ((splitOnNlNl s).map pystrip).filter (fun x => x ≠ []) = blankLineParagraphs s := by
  have h1 := intercalate_splitOnNlNl s
  have h2 := chunks_no_nlnl s
  have h3 := splitOnNlNl_ne_nil s
  have h4 := spec_of_chunks (splitOnNlNl s) h3 h2
  rw [h1] at h4
  unfold blankLineParagraphs
  exact h4.symm

theorem extract_scenes_eq_spec (s : List Char) :
    extract_scenes s =
      if blankLineParagraphs s = [] then Except.error ScriptError.emptyScript
      else Except.ok (blankLineParagraphs s) := by
  unfold extract_scenes
  simp only []
  have hff : ((((splitOnNlNl s).map pystrip).filter (fun x => x ≠ [])).filter
      (fun x => x ≠ [])) = ((splitOnNlNl s).map pystrip).filter (fun x => x ≠ []) := by
    rw [List.filter_filter]
    simp
  rw [hff, codeScenes_eq_blankLineParagraphs]

theorem extract_scenes_error_of_all_ws (s : List Char) (h : ∀ x ∈ s, pyWS x = true) :
    extract_scenes s = Except.error ScriptError.emptyScript := by
  rw [extract_scenes_eq_spec]
  have hcode : ((splitOnNlNl s).map pystrip).filter (fun x => x ≠ []) = [] := by
    apply List.filter_eq_nil_iff.mpr
    intro a ha
    simp only [List.mem_map] at ha
    obtain ⟨c, hc, hpc⟩ := ha
    have hcws : ∀ x ∈ c, pyWS x = true := by
      intro x hx
      apply h
      rw [← intercalate_splitOnNlNl s]
      exact mem_intercalate_of_mem _ _ _ hc _ hx
    rw [← hpc]
    simp [pystrip_eq_nil_of_all_ws c hcws]
  rw [codeScenes_eq_blankLineParagraphs] at hcode
  rw [hcode]
  simp

/-- C1: Scene decomposition. For every script, extract_scenes returns
exactly the non-empty trimmed blank-line-separated paragraphs of the
script, in original document order (so a script with N such paragraphs
yields exactly those N texts as scenes indexed 0 to N-1), and fails
with the empty-script error exactly when no such paragraph exists; in
particular every script that is empty or contains only whitespace and
separators fails with the empty-script error. -/
theorem extract_scenes_matches_blank_line_decomposition (s : List Char) :
    (extract_scenes s =
      if blankLineParagraphs s = [] then Except.error ScriptError.emptyScript
      else Except.ok (blankLineParagraphs s)) ∧
    ((∀ x ∈ s, pyWS x = true) → extract_scenes s = Except.error ScriptError.emptyScript) :=
  ⟨extract_scenes_eq_spec s, extract_scenes_error_of_all_ws s⟩

/-- Witness for C1 at a concrete whitespace-only script made of a
space, two newlines and a tab. -/
theorem extract_scenes_matches_blank_line_decomposition_witness :
    (∀ x ∈ (' ' :: '\n' :: '\n' :: '\t' :: []), pyWS x = true) ∧
      extract_scenes (' ' :: '\n' :: '\n' :: '\t' :: []) =
        Except.error ScriptError.emptyScript :=
  ⟨by decide,
    (extract_scenes_matches_blank_line_decomposition _).2 (by decide)⟩

theorem filterMap_id_add_failed {α : Type} (results : List (Option α)) :
    (results.filterMap id).length + failedSceneCount results = results.length := by
  induction results with
  | nil => rfl
  | cons r t ih =>
    cases r with
    | none =>
      simp only [failedSceneCount, List.filterMap_cons, List.filter_cons] at ih ⊢
      simp only [Option.isNone_none, if_true, List.length_cons, id]
      omega
    | some a =>
      simp only [failedSceneCount, List.filterMap_cons, List.filter_cons] at ih ⊢
      simp only [Option.isNone_some, List.length_cons, id]
      simp only [Bool.false_eq_true, if_false]
      omega

/-- C2: Aggregate failure policy. For every non-empty list of per-scene
outcomes, if the number of permanently failed scenes is strictly
greater than half the scene count (the integer form of the source
comparison failures > n / 2) the job fails with the
too-many-failed-scenes error; otherwise it proceeds with exactly the
successful results, preserved in original scene-index order. -/
theorem process_all_scenes_failure_threshold {α : Type} (results : List (Option α))
    (hn : 1 ≤ results.length) :
    (2 * failedSceneCount results > results.length →
      process_all_scenes results = Except.error PipelineError.tooManyFailedScenes) ∧
    (2 * failedSceneCount results ≤ results.length →
      process_all_scenes results = Except.ok (results.filterMap id)) := by
  constructor
  · intro h
    have hpos : 0 < failedSceneCount results := by omega
    unfold process_all_scenes
    rw [if_pos ⟨hpos, h⟩]
  · intro h
    have hcount := filterMap_id_add_failed results
    have hne : ¬(0 < failedSceneCount results ∧
        2 * failedSceneCount results > results.length) := by omega
    unfold process_all_scenes
    rw [if_neg hne]
    have hlen : 0 < (results.filterMap id).length := by omega
    have hemp : (results.filterMap id).isEmpty = false := by
      cases he : results.filterMap id with
      | nil => rw [he] at hlen; simp at hlen
      | cons x xs => simp
    simp only [hemp, Bool.false_eq_true, if_false]

/-- Witness for C2 at a three-scene job with two permanent failures. -/
theorem process_all_scenes_failure_threshold_witness :
    1 ≤ ([some 0, none, none] : List (Option ℕ)).length ∧
    2 * failedSceneCount ([some 0, none, none] : List (Option ℕ)) >
      ([some 0, none, none] : List (Option ℕ)).length ∧
    process_all_scenes ([some 0, none, none] : List (Option ℕ)) =
      Except.error PipelineError.tooManyFailedScenes :=
  ⟨by decide, by decide,
    (process_all_scenes_failure_threshold ([some 0, none, none] : List (Option ℕ))
      (by decide)).1 (by decide)⟩

/-- C3: concrete evaluation showing the fallback slip. The primary
Pexels query returned one candidate with url u, already used; the one
alternative keyword returned empty responses from both providers.
Every search attempt thus returned only already-used candidates, yet
fetch_stock_media returns no media at all instead of the reused first
candidate: the final fallback reads the variables results and
pixabay_results after the alternative-keyword loop overwrote them with
the last (empty) responses, contradicting the comment above it. -/
theorem fetch_stock_media_fallback_misses_used_candidate :
    fetch_stock_media ⟨[some "u"], [], [([], [])]⟩ none ["u"] = (none, ["u"]) := rfl

/-- C4: the media selections of one job are independent of the global
used-videos state left by previous jobs: line 1500 overwrites the set
with a fresh empty one at the start of every invocation, so a run with
an arbitrarily pre-populated set equals a run with an empty set. -/
theorem pipeline_independent_of_previous_job_dedup_state
    (u1 u2 : List String) (envs : List (FetchEnv × Option String)) :
    jobMediaSelections u1 envs = jobMediaSelections u2 envs := rfl

/-- C6 counterexample: a single-scene job with the out-of-range
custom-media index 5 does not fail with a validation error: the
validation step returns ok with the entry dropped and the job
proceeds normally. -/
theorem custom_media_out_of_range_not_fatal :
    process_all_scenes_full ([some 7] : List (Option ℕ)) [((5 : Int), "u")] =
      Except.ok [7] ∧
    validateCustomUrls [((5 : Int), "u")] 1 = Except.ok [] :=
  ⟨rfl, rfl⟩

/-- C6 amended: an out-of-range custom-media scene index is not a
fatal validation error: the custom-media step always succeeds, the
out-of-range entries are dropped (the kept entries are exactly the
dict entries whose index is in range) and the scene phase proceeds
exactly as it would without custom media. -/
theorem custom_media_out_of_range_dropped {α : Type} (results : List (Option α))
    (cm : List (Int × String)) :
    process_all_scenes_full results cm = process_all_scenes results ∧
    (∀ p : Int × String,
      (p ∈ (buildCustomUrls cm).filter
          (fun q => decide (0 ≤ q.1) && decide (q.1 < (results.length : Int)))) ↔
        (p ∈ buildCustomUrls cm ∧ 0 ≤ p.1 ∧ p.1 < (results.length : Int))) := by
  constructor
  · unfold process_all_scenes_full validateCustomUrls
    rfl
  · intro p
    rw [List.mem_filter]
    simp [and_assoc]

/-- C5 counterexample: with a forced transcription failure but a
caption service that succeeds on the script-derived srt track, the job
does not fail, yet it returns the captioned video, not the uncaptioned
one. This refutes the clause that any caption-stage failure makes the
pipeline return the uncaptioned video. -/
theorem caption_transcription_failure_yields_captioned :
    pipeline_caption_stage "uncap" true
        ⟨Except.error (), Except.ok (some "cap"), true⟩ = Except.ok "cap" ∧
    ("cap" : String) ≠ "uncap" :=
  ⟨rfl, by decide⟩

/-- C5 amended: no failure inside the caption stage aborts the job:
with a valid uncaptioned concatenated video the stage always returns
ok; and when the caption service raises, returns no usable path, or
the captioned output fails validation, it returns exactly the
validated uncaptioned video. A transcription failure alone falls back
to script-derived captions and may still produce a captioned video. -/
theorem caption_failure_never_fatal (env : CaptionEnv) (uncap : String) :
    (pipeline_caption_stage uncap true env).isOk = true ∧
    ((env.service = Except.error () ∨ env.service = Except.ok none ∨
        env.captionedValid = false) →
      pipeline_caption_stage uncap true env = Except.ok uncap) := by
  constructor
  · unfold pipeline_caption_stage
    cases h : caption_choice env <;> simp only [h] <;> rfl
  · intro hfail
    have hnone : caption_choice env = none := by
      unfold caption_choice
      cases ht : env.transcription with
      | ok s =>
        cases s with
        | none => simp
        | some str =>
          simp only []
          cases hs : env.service with
          | error e => simp
          | ok po =>
            cases po with
            | none => simp
            | some p =>
              rcases hfail with h | h | h
              · rw [hs] at h; cases h
              · rw [hs] at h; cases h
              · simp [h]
      | error e =>
        simp only []
        cases hs : env.service with
        | error e2 => simp
        | ok po =>
          cases po with
          | none => simp
          | some p =>
            rcases hfail with h | h | h
            · rw [hs] at h; cases h
            · rw [hs] at h; cases h
            · simp [h]
    unfold pipeline_caption_stage
    rw [hnone]
    simp

/-- Witness for C5 at a concrete caption environment whose caption
service raises. -/
theorem caption_failure_never_fatal_witness :
    ((⟨Except.ok (some "srt"), Except.error (), true⟩ : CaptionEnv).service =
        Except.error () ∨
      (⟨Except.ok (some "srt"), Except.error (), true⟩ : CaptionEnv).service =
        Except.ok none ∨
      (⟨Except.ok (some "srt"), Except.error (), true⟩ : CaptionEnv).captionedValid =
        false) ∧
    pipeline_caption_stage "final-video" true
        ⟨Except.ok (some "srt"), Except.error (), true⟩ = Except.ok "final-video" :=
  ⟨Or.inl rfl, (caption_failure_never_fatal _ _).2 (Or.inl rfl)⟩

/-- C7 counterexample: with a first input of codec vp9 and a second
input differing in width, standardization is triggered, but every
standardized stream carries codec h264, not the codec vp9 of the
first input: standardize_video_format receives the target codec and
encodes with libx264 regardless. -/
theorem standardization_ignores_first_codec :
    need_standardization
        [⟨1920, 1080, "vp9", "yuv420p"⟩, ⟨1280, 1080, "vp9", "yuv420p"⟩] = true ∧
    (concat_inputs
        [⟨1920, 1080, "vp9", "yuv420p"⟩, ⟨1280, 1080, "vp9", "yuv420p"⟩]).1.map
        (fun p => p.1.codec) = ["h264", "h264"] ∧
    ("vp9" : String) ≠ "h264" :=
  ⟨rfl, rfl, by decide⟩

/-- C7 amended: the join is always performed by re-encoding, and
whenever any input disagrees with the first input on resolution, codec
or pixel format, every input is standardized to the first input
resolution and pixel format and re-encoded to h264 (the first input
codec is passed as the target but the encoder is always libx264); the
scale-plus-padding filter is chosen exactly when the dimensions differ
and the aspect test exceeds the threshold. -/
theorem concat_inputs_cons (f : StreamInfo) (rest : List StreamInfo) :
    concat_inputs (f :: rest) =
      if need_standardization (f :: rest) = true then
        ((f :: rest).map
          (fun i => standardize_video_format i f.width f.height f.codec f.pixFmt), true)
      else ((f :: rest).map (fun i => (i, ScaleFilter.noScaling)), true) := rfl

theorem concatenation_standardizes_to_first_input (f : StreamInfo)
    (rest : List StreamInfo) :
    (concat_inputs (f :: rest)).2 = true ∧
    (need_standardization (f :: rest) = true →
      ∀ p ∈ (concat_inputs (f :: rest)).1,
        p.1.width = f.width ∧ p.1.height = f.height ∧ p.1.pixFmt = f.pixFmt ∧
          p.1.codec = "h264") ∧
    (∀ (i : StreamInfo) (tw th : ℕ) (tc tp : String),
      (standardize_video_format i tw th tc tp).2 = ScaleFilter.scalePad ↔
        ((i.width ≠ tw ∨ i.height ≠ th) ∧ aspectsFar i.width i.height tw th = true)) := by
  refine ⟨?_, ?_, ?_⟩
  · rw [concat_inputs_cons]
    split <;> rfl
  · intro h p hp
    rw [concat_inputs_cons] at hp
    simp only [h, if_true, List.mem_map] at hp
    obtain ⟨i, hi, hpi⟩ := hp
    rw [← hpi]
    unfold standardize_video_format
    exact ⟨rfl, rfl, rfl, rfl⟩
  · intro i tw th tc tp
    unfold standardize_video_format
    by_cases hd : i.width ≠ tw ∨ i.height ≠ th
    · rw [if_pos hd]
      by_cases ha : aspectsFar i.width i.height tw th = true
      · rw [if_pos ha]
        simp [hd, ha]
      · rw [if_neg ha]
        simp only [Bool.not_eq_true] at ha
        simp [ha]
    · rw [if_neg hd]
      simp [hd]

/-- Witness for C7 at two 16 to 9 inputs differing in width: the
second input standardizes to the first input dimensions and pixel
format with a plain scale filter. -/
theorem concatenation_standardizes_to_first_input_witness :
    need_standardization
        [⟨1920, 1080, "h264", "yuv420p"⟩, ⟨1280, 720, "h264", "yuv420p"⟩] = true ∧
    ((⟨1920, 1080, "h264", "yuv420p"⟩ : StreamInfo),
        ScaleFilter.scaleOnly).1.width = 1920 ∧
    ((⟨1920, 1080, "h264", "yuv420p"⟩ : StreamInfo),
        ScaleFilter.scaleOnly).1.codec = "h264" :=
  ⟨by decide,
    (((concatenation_standardizes_to_first_input ⟨1920, 1080, "h264", "yuv420p"⟩
        [⟨1280, 720, "h264", "yuv420p"⟩]).2.1 (by decide))
      ((⟨1920, 1080, "h264", "yuv420p"⟩ : StreamInfo), ScaleFilter.scaleOnly)
      (by decide)).1,
    (((concatenation_standardizes_to_first_input ⟨1920, 1080, "h264", "yuv420p"⟩
        [⟨1280, 720, "h264", "yuv420p"⟩]).2.1 (by decide))
      ((⟨1920, 1080, "h264", "yuv420p"⟩ : StreamInfo), ScaleFilter.scaleOnly)
      (by decide)).2.2.2⟩

theorem one_lt_num_loops (v a : ℚ) (hv : 0 < v) (hlt : v < a) : 1 < num_loops v a := by
  unfold num_loops
  have h1 : (1 : ℚ) ≤ a / v := (one_le_div hv).mpr (le_of_lt hlt)
  have h2 : (1 : ℤ) ≤ ⌊a / v⌋ := Int.le_floor.mpr (by exact_mod_cast h1)
  omega

theorem fade_duration_pos (v : ℚ) (hv : 0 < v) : 0 < fade_duration v := by
  unfold fade_duration
  apply lt_min
  · norm_num
  · positivity

theorem fade_duration_lt (v : ℚ) (hv3 : 3 ≤ v) : fade_duration v < v := by
  unfold fade_duration
  have : (1 : ℚ) / 2 < v := by linarith
  exact lt_of_le_of_lt (min_le_left _ _) this

theorem crossfade_chain_covers (v a : ℚ) (hv3 : 3 ≤ v) :
    a ≤ (total_loops_needed v a : ℚ) * v - ((total_loops_needed v a : ℚ) - 1) * fade_duration v := by
  set fd := fade_duration v with hfd
  have hfdpos : 0 < fd := fade_duration_pos v (by linarith)
  have hvfd : 0 < v - fd := by
    have := fade_duration_lt v hv3
    linarith
  set x : ℚ := (a + fd) / (v - fd) with hx
  have hn : (total_loops_needed v a : ℚ) > x := by
    unfold total_loops_needed
    push_cast
    rw [← hfd, ← hx]
    exact Int.lt_floor_add_one x
  have hxmul : x * (v - fd) = a + fd := div_mul_cancel₀ _ (ne_of_gt hvfd)
  have hchain : (total_loops_needed v a : ℚ) * v - ((total_loops_needed v a : ℚ) - 1) * fd
      = (total_loops_needed v a : ℚ) * (v - fd) + fd := by ring
  rw [hchain]
  have hmul : x * (v - fd) < (total_loops_needed v a : ℚ) * (v - fd) :=
    mul_lt_mul_of_pos_right hn hvfd
  rw [hxmul] at hmul
  linarith

theorem concat_len_covers (v a : ℚ) (hv : 0 < v) :
    a ≤ ((num_loops v a : ℚ) + 1) * v := by
  have hfl : a / v - 1 < (⌊a / v⌋ : ℚ) := Int.sub_one_lt_floor _
  have : a / v + 1 < ((num_loops v a : ℚ) + 1) := by
    unfold num_loops
    push_cast
    linarith
  have hmul : (a / v + 1) * v < ((num_loops v a : ℚ) + 1) * v :=
    mul_lt_mul_of_pos_right this hv
  have hav : a / v * v = a := div_mul_cancel₀ _ (ne_of_gt hv)
  nlinarith

/-- C8: Combine step. When the clip duration is less than the narration
duration, the clip is looped, with crossfade transitions when the clip
lasts at least 3 seconds and with a plain concat-demuxer loop
otherwise, the looped video covers the narration, and the mux trims
the output to exactly the narration duration; when the clip is at
least as long as the narration, only a trim is performed, again to the
narration duration; the narration is the sole audio track in every
branch. -/
theorem combine_video_audio_loop_and_trim (v a : ℚ) (hv : 0 < v) (ha : 0 < a) :
    (v < a → 3 ≤ v → (combine_video_audio_plan v a).style = LoopStyle.crossfade) ∧
    (v < a → v < 3 → (combine_video_audio_plan v a).style = LoopStyle.concatLoop) ∧
    (v < a → a ≤ (combine_video_audio_plan v a).loopedLen) ∧
    (a ≤ v → (combine_video_audio_plan v a).style = LoopStyle.trimOnly) ∧
    (combine_video_audio_plan v a).outDur = a ∧
    (combine_video_audio_plan v a).audioFromNarration = true := by
  by_cases hlt : v < a
  · have hnl := one_lt_num_loops v a hv hlt
    by_cases hv3 : 3 ≤ v
    · have hcond : 3 ≤ v ∧ 1 < num_loops v a := ⟨hv3, hnl⟩
      have hplan : combine_video_audio_plan v a =
          { style := .crossfade,
            loopedLen := min ((total_loops_needed v a : ℚ) * v -
              ((total_loops_needed v a : ℚ) - 1) * fade_duration v) (a + fade_duration v),
            outDur := min a (min ((total_loops_needed v a : ℚ) * v -
              ((total_loops_needed v a : ℚ) - 1) * fade_duration v) (a + fade_duration v)),
            audioFromNarration := true } := by
        unfold combine_video_audio_plan
        rw [if_pos hlt, if_pos hcond]
      have hcover := crossfade_chain_covers v a hv3
      have hfd : 0 < fade_duration v := fade_duration_pos v hv
      have hle : a ≤ min ((total_loops_needed v a : ℚ) * v -
          ((total_loops_needed v a : ℚ) - 1) * fade_duration v) (a + fade_duration v) :=
        le_min hcover (by linarith)
      refine ⟨fun _ _ => by rw [hplan], fun _ hv3n => absurd hv3 (by linarith),
        fun _ => ?_, fun hge => absurd hlt (not_lt.mpr hge), ?_, by rw [hplan]⟩
      · rw [hplan]
        exact hle
      · rw [hplan]
        exact min_eq_left hle
    · have hcond : ¬(3 ≤ v ∧ 1 < num_loops v a) := fun hc => hv3 hc.1
      have hplan : combine_video_audio_plan v a =
          { style := .concatLoop, loopedLen := ((num_loops v a : ℚ) + 1) * v,
            outDur := min a (((num_loops v a : ℚ) + 1) * v),
            audioFromNarration := true } := by
        unfold combine_video_audio_plan
        rw [if_pos hlt, if_neg hcond]
      have hcover := concat_len_covers v a hv
      refine ⟨fun _ hv3p => absurd hv3p hv3, fun _ _ => by rw [hplan],
        fun _ => ?_, fun hge => absurd hlt (not_lt.mpr hge), ?_, by rw [hplan]⟩
      · rw [hplan]
        exact hcover
      · rw [hplan]
        exact min_eq_left hcover
  · have hge : a ≤ v := not_lt.mp hlt
    have hplan : combine_video_audio_plan v a =
        { style := .trimOnly, loopedLen := v,
          outDur := min (a + 1 / 10) (min v a), audioFromNarration := true } := by
      unfold combine_video_audio_plan
      rw [if_neg hlt]
    refine ⟨fun hc _ => absurd hc hlt, fun hc _ => absurd hc hlt,
      fun hc => absurd hc hlt, fun _ => by rw [hplan], ?_, by rw [hplan]⟩
    rw [hplan]
    show min (a + 1 / 10) (min v a) = a
    rw [min_eq_right hge, min_eq_right (by linarith : a ≤ a + 1 / 10)]

/-- Witness for C8 at a 2 second clip and a 5 second narration. -/
theorem combine_video_audio_loop_and_trim_witness :
    (0 : ℚ) < 2 ∧ (0 : ℚ) < 5 ∧
    (combine_video_audio_plan 2 5).style = LoopStyle.concatLoop ∧
    (combine_video_audio_plan 2 5).outDur = 5 :=
  ⟨by norm_num, by norm_num,
    (combine_video_audio_loop_and_trim 2 5 (by norm_num) (by norm_num)).2.1
      (by norm_num) (by norm_num),
    (combine_video_audio_loop_and_trim 2 5 (by norm_num) (by norm_num)).2.2.2.2.1⟩

/-- C9 counterexample: a three-scene job in which two scenes fail
permanently and one succeeds hits the failed-scene threshold; the job
fails, but the rendered clip of the successful scene remains on disk:
it was never registered in the temp-files list (registration happens
only at concatenation time), so the cleanup removes nothing. -/
theorem threshold_failure_leaves_scene_clip :
    run_job_files [some "clip0", none, none] true "final" =
      (Except.error PipelineError.tooManyFailedScenes, ["clip0"]) ∧
    (["clip0"] : List String) ≠ [] :=
  ⟨rfl, by decide⟩

/-- C9 amended: cleanup removes exactly the files registered in the
per-job temp list. On success only the final artifact survives; on a
concatenation failure all registered clips are removed and no partial
final artifact remains; but on a failed-scene-threshold failure the
already-rendered scene clips survive on disk, because they are
registered only when concatenation begins. -/
theorem job_cleanup_tracks_temp_list (outcomes : List (Option String)) (fn : String)
    (hn : 1 ≤ outcomes.length) (hfn : fn ∉ outcomes.filterMap id) :
    (0 < failedSceneCount outcomes ∧
        2 * failedSceneCount outcomes > outcomes.length →
      run_job_files outcomes true fn =
        (Except.error PipelineError.tooManyFailedScenes, outcomes.filterMap id)) ∧
    (2 * failedSceneCount outcomes ≤ outcomes.length →
      run_job_files outcomes true fn = (Except.ok fn, [fn]) ∧
      run_job_files outcomes false fn =
        (Except.error PipelineError.concatenationFailed, [])) := by
  have hcount := filterMap_id_add_failed outcomes
  constructor
  · intro h
    unfold run_job_files
    rw [if_pos h]
  · intro h
    have hclips : outcomes.filterMap id ≠ [] := by
      intro he
      rw [he] at hcount
      simp at hcount
      omega
    have hcond : ¬(0 < failedSceneCount outcomes ∧
        2 * failedSceneCount outcomes > outcomes.length) := by omega
    constructor
    · unfold run_job_files
      rw [if_neg hcond, if_neg hclips]
      simp only [if_true]
      congr 1
      rw [List.filter_append]
      have h1 : (outcomes.filterMap id).filter
          (fun f => !(decide (f ∈ outcomes.filterMap id) && !(decide (f = fn)))) = [] := by
        apply List.filter_eq_nil_iff.mpr
        intro c hc
        have hcfn : c ≠ fn := fun he => hfn (he ▸ hc)
        simp [hc, hcfn]
      have h2 : ([fn] : List String).filter
          (fun f => !(decide (f ∈ outcomes.filterMap id) && !(decide (f = fn)))) = [fn] := by
        simp [hfn]
      rw [h1, h2, List.nil_append]
    · unfold run_job_files
      rw [if_neg hcond, if_neg hclips]
      simp only [Bool.false_eq_true, if_false]
      congr 1
      apply List.filter_eq_nil_iff.mpr
      intro c hc
      simp [hc]

/-- Witness for C9 at a one-scene job that succeeds. -/
theorem job_cleanup_tracks_temp_list_witness :
    1 ≤ ([some "c0"] : List (Option String)).length ∧
    ("f" : String) ∉ ([some "c0"] : List (Option String)).filterMap id ∧
    run_job_files [some "c0"] true "f" = (Except.ok "f", ["f"]) ∧
    run_job_files [some "c0"] false "f" =
      (Except.error PipelineError.concatenationFailed, []) :=
  ⟨by decide, by decide,
    ((job_cleanup_tracks_temp_list [some "c0"] "f" (by decide) (by decide)).2
      (by decide)).1,
    ((job_cleanup_tracks_temp_list [some "c0"] "f" (by decide) (by decide)).2
      (by decide)).2⟩

/-- C10: the concurrency limit computed at line 1527 is zero for a
27-scene script: min(3, 8 // max(1, 27 // 3)) = min(3, 8 // 9) = 0, so
the semaphore admits no task and scene rendering cannot start. This
contradicts the implicit claim that the limit is at least 1 for every
scene count. -/
theorem max_workers_zero_at_27 : max_workers 27 = 0 := rfl

end ScriptedVideo
